import Mathlib

/-!
Verification development for the HyDFS file plane (cpp repository cs425_mp3).

The C++ sources are embedded shallowly:

* C++ std::string and std::vector of char are byte sequences, modelled as
  lists of natural numbers (each entry is one byte value).
* std::unordered_map and std::map contents are modelled as association
  lists (insert-or-assign, erase and find are mirrored by list functions);
  the block map of FileStore is modelled as a function from block ids to
  optional blocks.
* Machine integers (uint32_t, uint64_t, size_t) are modelled as Nat; the
  byte-level encoders make truncation explicit by emitting a fixed number
  of bytes of the value.
* Wall-clock timestamps (std::chrono now) are passed in as an explicit
  argument named now; the opaque library hash std::hash is a parameter.
* A raw memcpy of an integer writes the bytes of the host integer, and the
  target platform of the repository (x86-64 Linux VMs) is little-endian,
  so a memcpy-serialized integer appears least-significant byte first.
  htonl and htobe64 write most-significant byte first.
* The receive path reads datagrams into a buffer that is zero-filled
  before each read (Node::handleIncoming), so a decoder read past the end
  of the encoded message observes zero bytes; readByte models this by
  returning 0 out of range.
-/

namespace HyDFS

/-- A C++ byte string (std::string or std::vector of char). -/
abbrev ByteStr := List Nat

/-- Little-endian byte encoding of a value at a fixed width, as memcpy of a
host integer writes it on the little-endian target platform. -/
def toLE : Nat → Nat → List Nat
  | 0, _ => []
  | w + 1, n => n % 256 :: toLE w (n / 256)

/-- Big-endian (network byte order) encoding at a fixed width, as htonl and
htobe64 write it. -/
def toBE (w n : Nat) : List Nat := (toLE w n).reverse

/-- Read one byte of the zero-initialized receive buffer: positions past the
end of the datagram hold zero. -/
def readByte (bs : List Nat) (i : Nat) : Nat := bs.getD i 0

/-- Little-endian read of a fixed-width integer at an offset. -/
def readLE : Nat → List Nat → Nat → Nat
  | 0, _, _ => 0
  | w + 1, bs, off => readByte bs off + 256 * readLE w bs (off + 1)

/-- Big-endian (network byte order) read of a fixed-width integer at an
offset, as ntohl and be64toh recover it. -/
def readBE : Nat → List Nat → Nat → Nat
  | 0, _, _ => 0
  | w + 1, bs, off => readByte bs off * 256 ^ w + readBE w bs (off + 1)

/-- Copy a run of bytes out of the buffer (memcpy into a string or vector). -/
def extractBytes (bs : List Nat) (off len : Nat) : List Nat :=
  (List.range len).map (fun i => readByte bs (off + i))

/-- FileBlock (file_block.hpp): one immutable block of a HyDFS file. -/
structure FileBlock where
  block_id : Nat
  client_id : ByteStr
  sequence_num : Nat
  timestamp : Nat
  data : ByteStr
  size : Nat
deriving DecidableEq

/-- FileMetadata (file_metadata.hpp): per-file record with the ordered list
of block ids. -/
structure FileMetadata where
  hydfs_filename : ByteStr
  file_id : Nat
  total_size : Nat
  block_ids : List Nat
  version : Nat
  created_timestamp : Nat
  last_modified_timestamp : Nat
deriving DecidableEq

/-- FileBlock::serialize (file_block.cpp): every integer field is written by
a plain memcpy of the host integer, so it appears in little-endian order on
the wire; the data bytes follow, size of them. -/
def FileBlock.serializeBytes (b : FileBlock) : List Nat :=
  toLE 8 b.block_id
    ++ toLE 4 b.client_id.length ++ b.client_id
    ++ toLE 4 b.sequence_num
    ++ toLE 8 b.timestamp
    ++ toLE 4 b.size
    ++ b.data.take b.size

/-- FileMetadata::serialize (file_metadata.cpp): filename length, filename,
file_id, total_size, version, both timestamps, block count and the block id
array, every integer written by memcpy (little-endian host order). -/
def FileMetadata.serializeBytes (m : FileMetadata) : List Nat :=
  toLE 4 m.hydfs_filename.length ++ m.hydfs_filename
    ++ toLE 8 m.file_id
    ++ toLE 8 m.total_size
    ++ toLE 4 m.version
    ++ toLE 8 m.created_timestamp
    ++ toLE 8 m.last_modified_timestamp
    ++ toLE 4 m.block_ids.length
    ++ (m.block_ids.map (toLE 8)).flatten

/-- serializeString (file_message.cpp): u32 length in network byte order
(htonl) followed by the raw bytes, no terminator. -/
def serializeString (s : ByteStr) : List Nat := toBE 4 s.length ++ s

/-- CollectBlocksResponse (file_message.hpp): a replica's blocks for one
file plus the replica's metadata version. -/
structure CollectBlocksResponse where
  hydfs_filename : ByteStr
  blocks : List FileBlock
  version : Nat
deriving DecidableEq

/-- CollectBlocksResponse::serialize (file_message.cpp): filename as a
length-prefixed string, block count (htonl), each block through
FileBlock::serialize, then the version (htonl). -/
def CollectBlocksResponse.serializeBytes (r : CollectBlocksResponse) : List Nat :=
  serializeString r.hydfs_filename
    ++ toBE 4 r.blocks.length
    ++ (r.blocks.map FileBlock.serializeBytes).flatten
    ++ toBE 4 r.version

/-- FileBlock::deserialize (file_block.cpp) reading at an offset of the
receive buffer: fields in the order block_id, client_id length, client_id,
sequence_num, timestamp, size, data, all integers read little-endian. -/
def FileBlock.deserializeBytesAt (bs : List Nat) (off : Nat) : FileBlock :=
  let bid := readLE 8 bs off
  let len := readLE 4 bs (off + 8)
  let cid := extractBytes bs (off + 12) len
  let seq := readLE 4 bs (off + 12 + len)
  let ts := readLE 8 bs (off + 16 + len)
  let sz := readLE 4 bs (off + 24 + len)
  let dat := extractBytes bs (off + 28 + len) sz
  ⟨bid, cid, seq, ts, dat, sz⟩

/-- The block loop of CollectBlocksResponse::deserialize (file_message.cpp).
After parsing each block the source advances the offset by
sizeof(uint64_t)*3 + sizeof(uint32_t)*2 + sizeof(uint32_t)
+ client_id.length() + block.size, that is 36 + length + size fixed bytes,
although a serialized block occupies 28 + length + size bytes. -/
def collectBlocksLoop (bs : List Nat) : Nat → Nat → List FileBlock × Nat
  | off, 0 => ([], off)
  | off, k + 1 =>
    let b := FileBlock.deserializeBytesAt bs off
    let off2 := off + 36 + b.client_id.length + b.size
    let rest := collectBlocksLoop bs off2 k
    (b :: rest.1, rest.2)

/-- CollectBlocksResponse::deserialize (file_message.cpp): length-prefixed
filename (ntohl), block count (ntohl), the block loop, then the version
(ntohl) at the final offset the loop produced. -/
def CollectBlocksResponse.deserializeBytes (bs : List Nat) : CollectBlocksResponse :=
  let len := readBE 4 bs 0
  let nm := extractBytes bs 4 len
  let off := 4 + len
  let cnt := readBE 4 bs (off + 4 - 4)
  let res := collectBlocksLoop bs (off + 4) cnt
  ⟨nm, res.1, readBE 4 bs res.2⟩

/-- The dispatch outcome of the inbound loop Node::handleIncoming
(node.cpp). The fileplane outcome stands for a dispatch into
FileOperationsHandler::handleFileMessage with the given discriminant. -/
inductive RouteAction where
  | ping
  | ack
  | gossip
  | join
  | leave
  | switchMode
  | fileplane (discriminant : Nat)
  | droppedUnknown
deriving DecidableEq

/-- Node::handleIncoming (node.cpp): every datagram is parsed by
Message::deserialize, whose type field is the first byte, and the switch
on that type handles PING=0, ACK=1, GOSSIP=2, JOIN=3, LEAVE=4, SWITCH=5;
every other first byte falls into the default branch, which only prints an
error line and drops the datagram. No branch inspects a file-plane
threshold or calls FileOperationsHandler::handleFileMessage. -/
def routeIncoming (firstByte : Nat) : RouteAction :=
  match firstByte with
  | 0 => .ping
  | 1 => .ack
  | 2 => .gossip
  | 3 => .join
  | 4 => .leave
  | 5 => .switchMode
  | _ => .droppedUnknown

/-- Association-list find mirroring map::find on keys. -/
def lookupA {α : Type} : List (ByteStr × α) → ByteStr → Option α
  | [], _ => none
  | p :: rest, k => if p.1 = k then some p.2 else lookupA rest k

/-- Association-list insert-or-assign mirroring map::operator[] assignment:
an existing key is overwritten in place, a new key is appended. -/
def insertA {α : Type} : List (ByteStr × α) → ByteStr → α → List (ByteStr × α)
  | [], k, v => [(k, v)]
  | p :: rest, k, v => if p.1 = k then (k, v) :: rest else p :: insertA rest k v

/-- Pointwise update of the block map (blocks[block_id] = block). -/
def updBlocks (m : Nat → Option FileBlock) (k : Nat) (v : FileBlock) : Nat → Option FileBlock :=
  fun i => if i = k then some v else m i

/-- Pointwise erase on the block map (blocks.erase(block_id)). -/
def eraseBlocks (m : Nat → Option FileBlock) (k : Nat) : Nat → Option FileBlock :=
  fun i => if i = k then none else m i

/-- FileStore (file_store.hpp): the filename-to-metadata map and the
block-id-to-block map guarded by one lock. -/
structure FileStore where
  files : List (ByteStr × FileMetadata)
  blocks : Nat → Option FileBlock

/-- The empty in-memory store a node starts with. -/
def FileStore.empty : FileStore := ⟨[], fun _ => none⟩

/-- The decimal digit bytes of a number, as std::to_string renders it. -/
def natDecimal (n : Nat) : ByteStr := (toString n).toUTF8.toList.map (fun c => c.toNat)

/-- FileBlock::generateBlockId (file_block.cpp): hash of the concatenation
of client_id, the decimal rendering of the timestamp and the decimal
rendering of the sequence number; the opaque std::hash is a parameter. -/
def generateBlockId (hash : ByteStr → Nat) (client_id : ByteStr) (timestamp seq : Nat) : Nat :=
  hash (client_id ++ natDecimal timestamp ++ natDecimal seq)

/-- FileMetadata::generateFileId (file_metadata.cpp): hash of the filename. -/
def generateFileId (hash : ByteStr → Nat) (filename : ByteStr) : Nat := hash filename

/-- FileStore::createFile (file_store.cpp): fail if the name is present;
otherwise install metadata with version 1, both timestamps set to now and
total_size the payload length, and - only when the payload is nonempty -
one block with sequence number 0 and timestamp now. -/
def createFile (hash : ByteStr → Nat) (s : FileStore) (filename : ByteStr) (data : ByteStr)
    (client_id : ByteStr) (now : Nat) : Bool × FileStore :=
  match lookupA s.files filename with
  | some _ => (false, s)
  | none =>
    let bid := generateBlockId hash client_id now 0
    let block : FileBlock := ⟨bid, client_id, 0, now, data, data.length⟩
    let md : FileMetadata :=
      { hydfs_filename := filename
        file_id := generateFileId hash filename
        total_size := data.length
        block_ids := if data.isEmpty then [] else [bid]
        version := 1
        created_timestamp := now
        last_modified_timestamp := now }
    let blocks2 := if data.isEmpty then s.blocks else updBlocks s.blocks bid block
    (true, ⟨insertA s.files filename md, blocks2⟩)

/-- FileStore::appendBlock (file_store.cpp): fail only if the file is
unknown; otherwise store the block, push its id onto block_ids, add its
size to total_size, stamp now and increment the version. There is no check
against an already-present block id. -/
def appendBlock (s : FileStore) (filename : ByteStr) (b : FileBlock) (now : Nat) :
    Bool × FileStore :=
  match lookupA s.files filename with
  | none => (false, s)
  | some md =>
    let md2 :=
      { md with
        block_ids := md.block_ids ++ [b.block_id]
        total_size := md.total_size + b.size
        last_modified_timestamp := now
        version := md.version + 1 }
    (true, ⟨insertA s.files filename md2, updBlocks s.blocks b.block_id b⟩)

/-- FileStore::getFile (file_store.cpp): an unknown name yields the empty
byte sequence; otherwise the data of the blocks found in the block map are
concatenated in block_ids order and a listed id whose block is absent is
silently skipped. -/
def getFile (s : FileStore) (filename : ByteStr) : ByteStr :=
  match lookupA s.files filename with
  | none => []
  | some md =>
    md.block_ids.foldl
      (fun acc bid =>
        match s.blocks bid with
        | some b => acc ++ b.data
        | none => acc)
      []

/-- The value-initialized FileMetadata that FileStore::getFileMetadata
returns for an unknown name. -/
def FileMetadata.zero : FileMetadata := ⟨[], 0, 0, [], 0, 0, 0⟩

/-- FileStore::getFileMetadata (file_store.cpp). -/
def getFileMetadata (s : FileStore) (filename : ByteStr) : FileMetadata :=
  (lookupA s.files filename).getD FileMetadata.zero

/-- FileStore::hasFile (file_store.cpp). -/
def hasFile (s : FileStore) (filename : ByteStr) : Bool :=
  (lookupA s.files filename).isSome

/-- FileStore::mergeFile (file_store.cpp): fail if the file is unknown;
otherwise erase the previously listed blocks, install the given blocks as
the new block_ids in order, recompute total_size as their size sum, stamp
now and increment the version. -/
def mergeFile (s : FileStore) (filename : ByteStr) (all_blocks : List FileBlock) (now : Nat) :
    Bool × FileStore :=
  match lookupA s.files filename with
  | none => (false, s)
  | some md =>
    let cleared := md.block_ids.foldl (fun m bid => eraseBlocks m bid) s.blocks
    let blocks2 := all_blocks.foldl (fun m b => updBlocks m b.block_id b) cleared
    let md2 :=
      { md with
        block_ids := all_blocks.map (fun b => b.block_id)
        total_size := (all_blocks.map (fun b => b.size)).sum
        version := md.version + 1
        last_modified_timestamp := now }
    (true, ⟨insertA s.files filename md2, blocks2⟩)

/-- MergeFileResponse (file_message.hpp). -/
structure MergeFileResponse where
  success : Bool
  error_message : ByteStr
  new_version : Nat
deriving DecidableEq

/-- MergeUpdateMessage (file_message.hpp): the merged block id order and the
new version a coordinator would broadcast. -/
structure MergeUpdateMessage where
  hydfs_filename : ByteStr
  merged_block_ids : List Nat
  new_version : Nat
deriving DecidableEq

/-- FileOperationsHandler::handleMergeRequest
(file_operations_handler.cpp). The body is the marked TODO stub: it reads
the local metadata version, replies success with that version, and leaves
the store untouched - no blocks are collected, nothing is deduplicated or
sorted, and no version is bumped. -/
def handleMergeRequest (s : FileStore) (req_filename : ByteStr) : FileStore × MergeFileResponse :=
  (s, ⟨true, [], (getFileMetadata s req_filename).version⟩)

/-- FileOperationsHandler::handleMergeUpdate (file_operations_handler.cpp).
The body is the marked TODO stub: it only writes a log line, so the merged
block list is ignored and the local store is unchanged. -/
def handleMergeUpdate (s : FileStore) (_msg : MergeUpdateMessage) : FileStore := s

/-- ClientTracker state (client_tracker.hpp): client id to a per-file list
of acknowledged block ids. -/
abbrev ClientTracker := List (ByteStr × List (ByteStr × List Nat))

/-- ClientTracker::recordAppend (client_tracker.cpp): push the block id onto
the per-client per-file list, default-constructing missing entries. -/
def recordAppend (t : ClientTracker) (client_id filename : ByteStr) (block_id : Nat) :
    ClientTracker :=
  let fm := (lookupA t client_id).getD []
  let ids := (lookupA fm filename).getD []
  insertA t client_id (insertA fm filename (ids ++ [block_id]))

/-- ClientTracker::getClientAppends (client_tracker.cpp). -/
def getClientAppends (t : ClientTracker) (client_id filename : ByteStr) : List Nat :=
  match lookupA t client_id with
  | none => []
  | some fm =>
    match lookupA fm filename with
    | none => []
    | some ids => ids

/-- ClientTracker::satisfiesReadMyWrites (client_tracker.cpp): true when the
client or the file has no recorded appends, otherwise true exactly when
every recorded id is found in the given block id list. -/
def satisfiesReadMyWrites (t : ClientTracker) (client_id filename : ByteStr)
    (file_block_ids : List Nat) : Bool :=
  match lookupA t client_id with
  | none => true
  | some fm =>
    match lookupA fm filename with
    | none => true
    | some ids => ids.all (fun bid => file_block_ids.contains bid)

/-- NodeId (message.hpp): host, port and the join epoch. -/
structure NodeId where
  host : ByteStr
  port : ByteStr
  time : Nat
deriving DecidableEq

/-- The ring of ConsistentHashRing (consistent_hash_ring.hpp): the contents
of the std::map from position to NodeId, listed in ascending key order as
the map iterates them. -/
abbrev Ring := List (Nat × NodeId)

/-- The std::map key order: strictly ascending positions. -/
def RingSorted (r : Ring) : Prop := List.Pairwise (fun a b => a.1 < b.1) r

/-- Representation invariant maintained by addNode and removeNode: every
entry sits at the position its node hashes to. -/
def RingWF (hashN : NodeId → Nat) (r : Ring) : Prop := ∀ e ∈ r, hashN e.2 = e.1

/-- ring.lower_bound(position): index of the first entry with key at least
position; the length signals the end iterator. -/
def lowerBoundIdx (r : Ring) (pos : Nat) : Nat := r.findIdx (fun e => pos ≤ e.1)

/-- The collection loop of ConsistentHashRing::getSuccessors: wrap the
iterator to begin() at end(), push the node, advance, repeat a fixed number
of times. -/
def collectSucc (r : Ring) : Nat → Nat → List NodeId
  | _, 0 => []
  | i, k + 1 =>
    let j := if r.length ≤ i then 0 else i
    match r[j]? with
    | some e => e.2 :: collectSucc r (j + 1) k
    | none => []

/-- ConsistentHashRing::getSuccessors (consistent_hash_ring.cpp): empty ring
yields nothing; otherwise start at lower_bound(position) and collect while
fewer than n and fewer than ring.size() entries were taken. -/
def getSuccessors (r : Ring) (pos : Nat) (n : Nat) : List NodeId :=
  if r.isEmpty then [] else collectSucc r (lowerBoundIdx r pos) (min n r.length)

/-- ConsistentHashRing::getFileReplicas (consistent_hash_ring.cpp):
successors of the filename hash position. -/
def getFileReplicas (hashF : ByteStr → Nat) (r : Ring) (filename : ByteStr) (n : Nat) :
    List NodeId :=
  getSuccessors r (hashF filename) n

/-- The size the block map holds for one id; an absent id contributes
nothing, matching how getFile skips it. -/
def sizeAt (blocks : Nat → Option FileBlock) (bid : Nat) : Nat :=
  match blocks bid with
  | some b => b.size
  | none => 0

/-- Sum of the sizes of the blocks the map holds for a list of ids. -/
def sumSizes (blocks : Nat → Option FileBlock) (ids : List Nat) : Nat :=
  (ids.map (sizeAt blocks)).sum

/-- All block ids listed by any file of the store. -/
def listedIds (s : FileStore) : List Nat :=
  (s.files.map fun p => p.2.block_ids).flatten

/-- All block ids listed by files other than the given one. -/
def listedIdsExcept (s : FileStore) (filename : ByteStr) : List Nat :=
  ((s.files.filter fun p => !(p.1 == filename)).map fun p => p.2.block_ids).flatten

/-- The size identity of spec property P2 together with the bookkeeping it
needs: every file's total_size is the size sum of its listed blocks, no
block id is listed twice anywhere in the store, and filenames are unique
map keys. -/
def StoreInv (s : FileStore) : Prop :=
  (∀ p ∈ s.files, p.2.total_size = sumSizes s.blocks p.2.block_ids) ∧
    (listedIds s).Nodup ∧ (s.files.map fun p => p.1).Nodup

/-- One mutating block-store operation of the kind claim P2 ranges over. -/
inductive StoreOp where
  | create (filename : ByteStr) (data : ByteStr) (client_id : ByteStr) (now : Nat)
  | append (filename : ByteStr) (b : FileBlock) (now : Nat)
  | merge (filename : ByteStr) (bs : List FileBlock) (now : Nat)

/-- Run one operation, keeping only the state (the boolean is dropped). -/
def applyOp (hash : ByteStr → Nat) (s : FileStore) : StoreOp → FileStore
  | .create f d c n => (createFile hash s f d c n).2
  | .append f b n => (appendBlock s f b n).2
  | .merge f bs n => (mergeFile s f bs n).2

/-- Run a sequence of operations left to right. -/
def applyOps (hash : ByteStr → Nat) (s : FileStore) (ops : List StoreOp) : FileStore :=
  ops.foldl (applyOp hash) s

/-- Freshness of the block ids an operation introduces: the spec treats
block id collisions as application errors, so a create or append may not
reuse a listed id and a merge may not install duplicate ids or ids listed
by other files. An operation that is a no-op (create of a present file,
append or merge of an absent one) needs nothing. -/
def wfOp (hash : ByteStr → Nat) (s : FileStore) : StoreOp → Bool
  | .create f d c n =>
    hasFile s f || d.isEmpty || !((listedIds s).contains (generateBlockId hash c n 0))
  | .append f b _ => !(hasFile s f) || !((listedIds s).contains b.block_id)
  | .merge f bs _ =>
    !(hasFile s f) ||
      (decide (bs.map fun b => b.block_id).Nodup &&
        bs.all fun b => !((listedIdsExcept s f).contains b.block_id))

/-- Freshness along a whole trace: each operation is fresh in the state the
previous ones produced. -/
def wfTrace (hash : ByteStr → Nat) : FileStore → List StoreOp → Bool
  | _, [] => true
  | s, op :: ops => wfOp hash s op && wfTrace hash (applyOp hash s op) ops

/-- The claim-side reading of getFile, phrased the way the claim words it:
an absent file gives the empty byte sequence, a present one gives the
concatenation of the data of only those listed blocks present in the block
map. -/
def specGetFile (s : FileStore) (filename : ByteStr) : ByteStr :=
  match lookupA s.files filename with
  | none => []
  | some md => ((md.block_ids.filterMap s.blocks).map fun b => b.data).flatten

/-- Concrete operation sequence refuting the unconditional size identity:
an empty create followed by two appends that reuse block id 1 with
different sizes. The trace never calls the hash, so the zero function
stands in for std::hash. -/
def dupIdTrace : List StoreOp :=
  [StoreOp.create [102] [] [99] 0,
    StoreOp.append [102] ⟨1, [99], 0, 3, [100], 1⟩ 5,
    StoreOp.append [102] ⟨1, [99], 1, 4, [100, 100], 2⟩ 6]

/-- The store that concrete sequence produces from the empty store. -/
def dupIdStore : FileStore := applyOps (fun _ => 0) FileStore.empty dupIdTrace

/-- Concrete well-formed operation sequence exercising create, append and
merge with pairwise-distinct block ids. -/
def freshIdTrace : List StoreOp :=
  [StoreOp.create [102] [55] [99] 0,
    StoreOp.append [102] ⟨1, [99], 0, 3, [100], 1⟩ 5,
    StoreOp.merge [102] [⟨2, [99], 0, 7, [100, 100], 2⟩] 8]

end HyDFS

namespace HyDFS

lemma toLE_length (w n : Nat) : (toLE w n).length = w := by
  induction w generalizing n with
  | zero => rfl
  | succ w ih => simp [toLE, ih]

lemma readByte_cons_succ (x : Nat) (xs : List Nat) (i : Nat) :
    readByte (x :: xs) (i + 1) = readByte xs i := by
  simp [readByte]

lemma readLE_cons_succ (w x : Nat) (xs : List Nat) (off : Nat) :
    readLE w (x :: xs) (off + 1) = readLE w xs off := by
  induction w generalizing off with
  | zero => rfl
  | succ w ih => simp [readLE, readByte_cons_succ, ih]

lemma readLE_append_right (w : Nat) (pre bs : List Nat) (off : Nat) :
    readLE w (pre ++ bs) (pre.length + off) = readLE w bs off := by
  induction pre with
  | nil => simp
  | cons x pre ih =>
    have h : (x :: pre).length + off = (pre.length + off) + 1 := by
      simp [Nat.add_comm, Nat.add_assoc, Nat.add_left_comm]
    rw [List.cons_append, h, readLE_cons_succ, ih]

lemma readLE_skip (w : Nat) (A B : List Nat) (off : Nat) (h : A.length = off) :
    readLE w (A ++ B) off = readLE w B 0 := by
  subst h
  simpa using readLE_append_right w A B 0

lemma readLE_toLE_mod (w n : Nat) (rest : List Nat) :
    readLE w (toLE w n ++ rest) 0 = n % 256 ^ w := by
  induction w generalizing n with
  | zero => simp [readLE, toLE, Nat.mod_one]
  | succ w ih =>
    show readLE (w + 1) ((n % 256 :: toLE w (n / 256)) ++ rest) 0 = n % 256 ^ (w + 1)
    rw [List.cons_append]
    show readByte (n % 256 :: (toLE w (n / 256) ++ rest)) 0 +
        256 * readLE w (n % 256 :: (toLE w (n / 256) ++ rest)) (0 + 1) = n % 256 ^ (w + 1)
    rw [readLE_cons_succ, ih]
    have hpow : (256 : Nat) ^ (w + 1) = 256 * 256 ^ w := by
      rw [Nat.pow_succ, Nat.mul_comm]
    rw [hpow, Nat.mod_mul]
    rfl

lemma readLE_toLE (w n : Nat) (rest : List Nat) (h : n < 256 ^ w) :
    readLE w (toLE w n ++ rest) 0 = n := by
  rw [readLE_toLE_mod, Nat.mod_eq_of_lt h]

lemma readLE_flatten_toLE (ids : List Nat) (i : Nat) (h : i < ids.length) :
    readLE 8 ((ids.map (toLE 8)).flatten) (8 * i) = ids.get ⟨i, h⟩ % 256 ^ 8 := by
  induction ids generalizing i with
  | nil => simp at h
  | cons a rest ih =>
    cases i with
    | zero =>
      simp only [List.map_cons, List.flatten_cons, Nat.mul_zero]
      have := readLE_toLE_mod 8 a ((rest.map (toLE 8)).flatten)
      simpa using this
    | succ i =>
      have hi : i < rest.length := by simpa using h
      have hlen : (toLE 8 a).length = 8 := toLE_length 8 a
      have hoff : 8 * (i + 1) = (toLE 8 a).length + 8 * i := by
        rw [hlen]; ring
      simp only [List.map_cons, List.flatten_cons]
      rw [hoff, readLE_append_right]
      simpa using ih i hi

end HyDFS

namespace HyDFS

/-- C1: the merge path of the source is the marked TODO stub. The
coordinator-side handler handleMergeRequest replies success carrying the
current local version without collecting any blocks, and handleMergeUpdate
ignores the merged block list, so two replicas of the same file that hold
different block_ids still hold different block_ids and their old versions
after the complete merge message exchange; nothing is deduplicated, sorted
or bumped to one plus the maximum collected version. -/
theorem merge_handlers_are_stubs_replicas_stay_divergent :
    (handleMergeRequest
        ⟨[([102], ⟨[102], 0, 1, [1], 3, 0, 0⟩)],
          fun i => if i = 1 then some ⟨1, [97], 0, 0, [100], 1⟩ else none⟩ [102]).1 =
      ⟨[([102], ⟨[102], 0, 1, [1], 3, 0, 0⟩)],
        fun i => if i = 1 then some ⟨1, [97], 0, 0, [100], 1⟩ else none⟩ ∧
    (handleMergeRequest
        ⟨[([102], ⟨[102], 0, 1, [1], 3, 0, 0⟩)],
          fun i => if i = 1 then some ⟨1, [97], 0, 0, [100], 1⟩ else none⟩ [102]).2 =
      ⟨true, [], 3⟩ ∧
    (∀ s : FileStore, ∀ m : MergeUpdateMessage, handleMergeUpdate s m = s) ∧
    (getFileMetadata
        (handleMergeUpdate
          ⟨[([102], ⟨[102], 0, 1, [1], 3, 0, 0⟩)],
            fun i => if i = 1 then some ⟨1, [97], 0, 0, [100], 1⟩ else none⟩
          ⟨[102], [1, 2], 6⟩) [102]).block_ids ≠
      (getFileMetadata
        (handleMergeUpdate
          ⟨[([102], ⟨[102], 0, 1, [2], 5, 0, 0⟩)],
            fun i => if i = 2 then some ⟨2, [98], 0, 0, [101], 1⟩ else none⟩
          ⟨[102], [1, 2], 6⟩) [102]).block_ids ∧
    (getFileMetadata
        (handleMergeUpdate
          ⟨[([102], ⟨[102], 0, 1, [1], 3, 0, 0⟩)],
            fun i => if i = 1 then some ⟨1, [97], 0, 0, [100], 1⟩ else none⟩
          ⟨[102], [1, 2], 6⟩) [102]).version = 3 := by
  refine ⟨rfl, ?_, fun s m => rfl, by decide, by decide⟩
  simp [handleMergeRequest, getFileMetadata, lookupA]

/-- C2: the inbound demultiplexer Node::handleIncoming parses every
datagram as a membership Message and switches only on the six membership
types 0 through 5; it never compares the first byte against the file-plane
threshold 100 and never dispatches into
FileOperationsHandler::handleFileMessage, so a datagram whose first byte is
100 (CREATE_REQUEST) lands in the default branch and is dropped with an
error line instead of being decoded as a file message. -/
theorem router_drops_file_plane_discriminants :
    routeIncoming 100 = RouteAction.droppedUnknown ∧
    ∀ b t, routeIncoming b ≠ RouteAction.fileplane t := by
  refine ⟨rfl, fun b t => ?_⟩
  rcases b with _ | _ | _ | _ | _ | _ | b <;> simp [routeIncoming]

/-- C3: decode after encode is not the identity for COLLECT_BLOCKS_RESPONSE
carrying one block: CollectBlocksResponse::deserialize advances the offset
by 36 fixed bytes per block although FileBlock::serialize emits 28 fixed
bytes, so the version is read 8 bytes past where it was written and comes
back 0 instead of the encoded 7. -/
theorem collect_blocks_response_roundtrip_fails :
    CollectBlocksResponse.deserializeBytes
        (CollectBlocksResponse.serializeBytes ⟨[102], [⟨1, [], 0, 0, [], 0⟩], 7⟩) =
      ⟨[102], [⟨1, [], 0, 0, [], 0⟩], 0⟩ ∧
    CollectBlocksResponse.deserializeBytes
        (CollectBlocksResponse.serializeBytes ⟨[102], [⟨1, [], 0, 0, [], 0⟩], 7⟩) ≠
      ⟨[102], [⟨1, [], 0, 0, [], 0⟩], 7⟩ := by
  exact ⟨by decide, by decide⟩

/-- C4 counterexample: the integer fields of an encoded Block and an
encoded FileMetadata are not written in network byte order. A block with
block_id 1 serializes with first byte 1 (least-significant byte first),
and a metadata record with file_id 1 carries that field least-significant
byte first as well, while big-endian would put the 1 last. -/
theorem block_and_metadata_integers_not_big_endian :
    (FileBlock.serializeBytes ⟨1, [], 0, 0, [], 0⟩).take 8 ≠ toBE 8 1 ∧
    ((FileMetadata.serializeBytes ⟨[102], 1, 0, [], 1, 0, 0⟩).drop 5).take 8 ≠ toBE 8 1 := by
  exact ⟨by decide, by decide⟩

/-- C4 amended: FileBlock::serialize and FileMetadata::serialize write every
fixed-width integer field by memcpy of the host integer, so on the
little-endian target each field sits at its declared offset and width in
little-endian order: reading it back little-endian recovers the field,
at the offsets dictated by the declared widths. -/
theorem block_and_metadata_integers_little_endian (b : FileBlock) (m : FileMetadata)
    (hb1 : b.block_id < 256 ^ 8) (hb2 : b.client_id.length < 256 ^ 4)
    (hb3 : b.sequence_num < 256 ^ 4) (hb4 : b.timestamp < 256 ^ 8) (hb5 : b.size < 256 ^ 4)
    (hm1 : m.hydfs_filename.length < 256 ^ 4) (hm2 : m.file_id < 256 ^ 8)
    (hm3 : m.total_size < 256 ^ 8) (hm4 : m.version < 256 ^ 4)
    (hm5 : m.created_timestamp < 256 ^ 8) (hm6 : m.last_modified_timestamp < 256 ^ 8)
    (hm7 : m.block_ids.length < 256 ^ 4) :
    readLE 8 b.serializeBytes 0 = b.block_id ∧
    readLE 4 b.serializeBytes 8 = b.client_id.length ∧
    readLE 4 b.serializeBytes (12 + b.client_id.length) = b.sequence_num ∧
    readLE 8 b.serializeBytes (16 + b.client_id.length) = b.timestamp ∧
    readLE 4 b.serializeBytes (24 + b.client_id.length) = b.size ∧
    readLE 4 m.serializeBytes 0 = m.hydfs_filename.length ∧
    readLE 8 m.serializeBytes (4 + m.hydfs_filename.length) = m.file_id ∧
    readLE 8 m.serializeBytes (12 + m.hydfs_filename.length) = m.total_size ∧
    readLE 4 m.serializeBytes (20 + m.hydfs_filename.length) = m.version ∧
    readLE 8 m.serializeBytes (24 + m.hydfs_filename.length) = m.created_timestamp ∧
    readLE 8 m.serializeBytes (32 + m.hydfs_filename.length) = m.last_modified_timestamp ∧
    readLE 4 m.serializeBytes (40 + m.hydfs_filename.length) = m.block_ids.length ∧
    ∀ i, (hi : i < m.block_ids.length) → m.block_ids.get ⟨i, hi⟩ < 256 ^ 8 →
      readLE 8 m.serializeBytes (44 + m.hydfs_filename.length + 8 * i) =
        m.block_ids.get ⟨i, hi⟩ := by
  have hL8 : ∀ n : Nat, (toLE 8 n).length = 8 := fun n => toLE_length 8 n
  have hL4 : ∀ n : Nat, (toLE 4 n).length = 4 := fun n => toLE_length 4 n
  refine ⟨?_, ?_, ?_, ?_, ?_, ?_, ?_, ?_, ?_, ?_, ?_, ?_, ?_⟩
  · have e : b.serializeBytes =
        toLE 8 b.block_id ++
          (toLE 4 b.client_id.length ++
            (b.client_id ++
              (toLE 4 b.sequence_num ++
                (toLE 8 b.timestamp ++ (toLE 4 b.size ++ b.data.take b.size))))) := by
      simp [FileBlock.serializeBytes]
    rw [e]
    exact readLE_toLE 8 _ _ hb1
  · have e : b.serializeBytes =
        toLE 8 b.block_id ++
          (toLE 4 b.client_id.length ++
            (b.client_id ++
              (toLE 4 b.sequence_num ++
                (toLE 8 b.timestamp ++ (toLE 4 b.size ++ b.data.take b.size))))) := by
      simp [FileBlock.serializeBytes]
    rw [e, readLE_skip 4 _ _ 8 (hL8 _)]
    exact readLE_toLE 4 _ _ hb2
  · have e : b.serializeBytes =
        (toLE 8 b.block_id ++ (toLE 4 b.client_id.length ++ b.client_id)) ++
          (toLE 4 b.sequence_num ++
            (toLE 8 b.timestamp ++ (toLE 4 b.size ++ b.data.take b.size))) := by
      simp [FileBlock.serializeBytes]
    rw [e, readLE_skip 4 _ _ _ (by simp [hL8, hL4]; try omega)]
    exact readLE_toLE 4 _ _ hb3
  · have e : b.serializeBytes =
        (toLE 8 b.block_id ++
            (toLE 4 b.client_id.length ++ (b.client_id ++ toLE 4 b.sequence_num))) ++
          (toLE 8 b.timestamp ++ (toLE 4 b.size ++ b.data.take b.size)) := by
      simp [FileBlock.serializeBytes]
    rw [e, readLE_skip 8 _ _ _ (by simp [hL8, hL4]; try omega)]
    exact readLE_toLE 8 _ _ hb4
  · have e : b.serializeBytes =
        (toLE 8 b.block_id ++
            (toLE 4 b.client_id.length ++
              (b.client_id ++ (toLE 4 b.sequence_num ++ toLE 8 b.timestamp)))) ++
          (toLE 4 b.size ++ b.data.take b.size) := by
      simp [FileBlock.serializeBytes]
    rw [e, readLE_skip 4 _ _ _ (by simp [hL8, hL4]; try omega)]
    exact readLE_toLE 4 _ _ hb5
  · have e : m.serializeBytes =
        toLE 4 m.hydfs_filename.length ++
          (m.hydfs_filename ++
            (toLE 8 m.file_id ++
              (toLE 8 m.total_size ++
                (toLE 4 m.version ++
                  (toLE 8 m.created_timestamp ++
                    (toLE 8 m.last_modified_timestamp ++
                      (toLE 4 m.block_ids.length ++ (m.block_ids.map (toLE 8)).flatten))))))) := by
      simp [FileMetadata.serializeBytes]
    rw [e]
    exact readLE_toLE 4 _ _ hm1
  · have e : m.serializeBytes =
        (toLE 4 m.hydfs_filename.length ++ m.hydfs_filename) ++
          (toLE 8 m.file_id ++
            (toLE 8 m.total_size ++
              (toLE 4 m.version ++
                (toLE 8 m.created_timestamp ++
                  (toLE 8 m.last_modified_timestamp ++
                    (toLE 4 m.block_ids.length ++ (m.block_ids.map (toLE 8)).flatten)))))) := by
      simp [FileMetadata.serializeBytes]
    rw [e, readLE_skip 8 _ _ _ (by simp [hL8, hL4]; try omega)]
    exact readLE_toLE 8 _ _ hm2
  · have e : m.serializeBytes =
        (toLE 4 m.hydfs_filename.length ++ (m.hydfs_filename ++ toLE 8 m.file_id)) ++
          (toLE 8 m.total_size ++
            (toLE 4 m.version ++
              (toLE 8 m.created_timestamp ++
                (toLE 8 m.last_modified_timestamp ++
                  (toLE 4 m.block_ids.length ++ (m.block_ids.map (toLE 8)).flatten))))) := by
      simp [FileMetadata.serializeBytes]
    rw [e, readLE_skip 8 _ _ _ (by simp [hL8, hL4]; try omega)]
    exact readLE_toLE 8 _ _ hm3
  · have e : m.serializeBytes =
        (toLE 4 m.hydfs_filename.length ++
            (m.hydfs_filename ++ (toLE 8 m.file_id ++ toLE 8 m.total_size))) ++
          (toLE 4 m.version ++
            (toLE 8 m.created_timestamp ++
              (toLE 8 m.last_modified_timestamp ++
                (toLE 4 m.block_ids.length ++ (m.block_ids.map (toLE 8)).flatten)))) := by
      simp [FileMetadata.serializeBytes]
    rw [e, readLE_skip 4 _ _ _ (by simp [hL8, hL4]; try omega)]
    exact readLE_toLE 4 _ _ hm4
  · have e : m.serializeBytes =
        (toLE 4 m.hydfs_filename.length ++
            (m.hydfs_filename ++
              (toLE 8 m.file_id ++ (toLE 8 m.total_size ++ toLE 4 m.version)))) ++
          (toLE 8 m.created_timestamp ++
            (toLE 8 m.last_modified_timestamp ++
              (toLE 4 m.block_ids.length ++ (m.block_ids.map (toLE 8)).flatten))) := by
      simp [FileMetadata.serializeBytes]
    rw [e, readLE_skip 8 _ _ _ (by simp [hL8, hL4]; try omega)]
    exact readLE_toLE 8 _ _ hm5
  · have e : m.serializeBytes =
        (toLE 4 m.hydfs_filename.length ++
            (m.hydfs_filename ++
              (toLE 8 m.file_id ++
                (toLE 8 m.total_size ++ (toLE 4 m.version ++ toLE 8 m.created_timestamp))))) ++
          (toLE 8 m.last_modified_timestamp ++
            (toLE 4 m.block_ids.length ++ (m.block_ids.map (toLE 8)).flatten)) := by
      simp [FileMetadata.serializeBytes]
    rw [e, readLE_skip 8 _ _ _ (by simp [hL8, hL4]; try omega)]
    exact readLE_toLE 8 _ _ hm6
  · have e : m.serializeBytes =
        (toLE 4 m.hydfs_filename.length ++
            (m.hydfs_filename ++
              (toLE 8 m.file_id ++
                (toLE 8 m.total_size ++
                  (toLE 4 m.version ++
                    (toLE 8 m.created_timestamp ++ toLE 8 m.last_modified_timestamp)))))) ++
          (toLE 4 m.block_ids.length ++ (m.block_ids.map (toLE 8)).flatten) := by
      simp [FileMetadata.serializeBytes]
    rw [e, readLE_skip 4 _ _ _ (by simp [hL8, hL4]; try omega)]
    exact readLE_toLE 4 _ _ hm7
  · intro i hi hlt
    have e : m.serializeBytes =
        (toLE 4 m.hydfs_filename.length ++
            (m.hydfs_filename ++
              (toLE 8 m.file_id ++
                (toLE 8 m.total_size ++
                  (toLE 4 m.version ++
                    (toLE 8 m.created_timestamp ++
                      (toLE 8 m.last_modified_timestamp ++ toLE 4 m.block_ids.length))))))) ++
          (m.block_ids.map (toLE 8)).flatten := by
      simp [FileMetadata.serializeBytes]
    have hoff : 44 + m.hydfs_filename.length + 8 * i =
        (toLE 4 m.hydfs_filename.length ++
            (m.hydfs_filename ++
              (toLE 8 m.file_id ++
                (toLE 8 m.total_size ++
                  (toLE 4 m.version ++
                    (toLE 8 m.created_timestamp ++
                      (toLE 8 m.last_modified_timestamp ++
                        toLE 4 m.block_ids.length))))))).length + 8 * i := by
      simp [hL8, hL4]
      try omega
    rw [e, hoff, readLE_append_right, readLE_flatten_toLE m.block_ids i hi,
      Nat.mod_eq_of_lt hlt]

end HyDFS

namespace HyDFS

lemma lookupA_insertA_self {α : Type} (l : List (ByteStr × α)) (k : ByteStr) (v : α) :
    lookupA (insertA l k v) k = some v := by
  induction l with
  | nil => simp [insertA, lookupA]
  | cons p rest ih =>
    by_cases h : p.1 = k
    · simp [insertA, h, lookupA]
    · simp [insertA, h, lookupA, ih]

lemma lookupA_insertA_ne {α : Type} (l : List (ByteStr × α)) (k k2 : ByteStr) (v : α)
    (h : k2 ≠ k) : lookupA (insertA l k v) k2 = lookupA l k2 := by
  have hne : ¬(k = k2) := fun he => h he.symm
  induction l with
  | nil => simp [insertA, lookupA, hne]
  | cons p rest ih =>
    by_cases hp : p.1 = k
    · subst hp
      simp [insertA, lookupA, hne]
    · by_cases hp2 : p.1 = k2
      · simp [insertA, hp, lookupA, hp2, h, hne]
      · simp [insertA, hp, lookupA, hp2, ih]

/-- C4 witness: the little-endian field readback at a concrete block and a
concrete metadata record. -/
theorem block_and_metadata_integers_little_endian_witness :
    readLE 8 (FileBlock.serializeBytes ⟨1, [7], 2, 3, [9], 1⟩) 0 = 1 ∧
    readLE 8 (FileMetadata.serializeBytes ⟨[102], 4, 5, [6], 7, 8, 9⟩) (4 + 1) = 4 := by
  have h := block_and_metadata_integers_little_endian ⟨1, [7], 2, 3, [9], 1⟩
      ⟨[102], 4, 5, [6], 7, 8, 9⟩ (by decide) (by decide) (by decide) (by decide) (by decide)
      (by decide) (by decide) (by decide) (by decide) (by decide) (by decide) (by decide)
  exact ⟨h.1, by simpa using h.2.2.2.2.2.2.1⟩

/-- C5 counterexample: an append whose block id 5 already appears in the
file's block_ids is not rejected - appendBlock returns true and the file's
block_ids becomes the duplicated list. -/
theorem duplicate_append_accepted :
    (appendBlock
        ⟨[([102], ⟨[102], 0, 1, [5], 1, 0, 0⟩)],
          fun i => if i = 5 then some ⟨5, [99], 0, 0, [100], 1⟩ else none⟩
        [102] ⟨5, [99], 0, 0, [100], 1⟩ 9).1 = true ∧
    (getFileMetadata
        (appendBlock
          ⟨[([102], ⟨[102], 0, 1, [5], 1, 0, 0⟩)],
            fun i => if i = 5 then some ⟨5, [99], 0, 0, [100], 1⟩ else none⟩
          [102] ⟨5, [99], 0, 0, [100], 1⟩ 9).2 [102]).block_ids = [5, 5] := by
  exact ⟨by decide, by decide⟩

/-- C5 amended: appendBlock rejects an append only when the file is
unknown; whenever the file exists the append succeeds unconditionally, the
given block id is pushed onto block_ids whether or not it already appears
there, and the block map stores the block. -/
theorem append_appends_unconditionally (s : FileStore) (f : ByteStr) (b : FileBlock) (now : Nat)
    (md : FileMetadata) (h : lookupA s.files f = some md) :
    (appendBlock s f b now).1 = true ∧
    lookupA (appendBlock s f b now).2.files f =
      some { md with
        block_ids := md.block_ids ++ [b.block_id]
        total_size := md.total_size + b.size
        last_modified_timestamp := now
        version := md.version + 1 } ∧
    (appendBlock s f b now).2.blocks b.block_id = some b := by
  refine ⟨by simp [appendBlock, h], ?_, by simp [appendBlock, h, updBlocks]⟩
  simp only [appendBlock, h]
  exact lookupA_insertA_self _ _ _

/-- C5 amended witness: appending the already-listed block id 5 succeeds
and duplicates the entry. -/
theorem append_appends_unconditionally_witness :
    lookupA (⟨[([102], ⟨[102], 0, 1, [5], 1, 0, 0⟩)], fun _ => none⟩ : FileStore).files [102] =
      some ⟨[102], 0, 1, [5], 1, 0, 0⟩ ∧
    (appendBlock ⟨[([102], ⟨[102], 0, 1, [5], 1, 0, 0⟩)], fun _ => none⟩ [102]
        ⟨5, [99], 0, 0, [100], 1⟩ 9).1 = true ∧
    lookupA (appendBlock ⟨[([102], ⟨[102], 0, 1, [5], 1, 0, 0⟩)], fun _ => none⟩ [102]
        ⟨5, [99], 0, 0, [100], 1⟩ 9).2.files [102] = some ⟨[102], 0, 2, [5, 5], 2, 0, 9⟩ ∧
    (appendBlock ⟨[([102], ⟨[102], 0, 1, [5], 1, 0, 0⟩)], fun _ => none⟩ [102]
        ⟨5, [99], 0, 0, [100], 1⟩ 9).2.blocks 5 = some ⟨5, [99], 0, 0, [100], 1⟩ := by
  have h := append_appends_unconditionally
      ⟨[([102], ⟨[102], 0, 1, [5], 1, 0, 0⟩)], fun _ => none⟩ [102]
      ⟨5, [99], 0, 0, [100], 1⟩ 9 ⟨[102], 0, 1, [5], 1, 0, 0⟩ (by decide)
  exact ⟨by decide, h.1, by simpa using h.2.1, h.2.2⟩

/-- C6 counterexample: creating a file from an empty payload succeeds and
installs metadata with version 1 but no block at all, not exactly one
block. -/
theorem create_empty_payload_installs_no_block :
    (createFile (fun _ => 0) FileStore.empty [102] [] [99] 5).1 = true ∧
    (getFileMetadata (createFile (fun _ => 0) FileStore.empty [102] [] [99] 5).2 [102]).version =
      1 ∧
    (getFileMetadata (createFile (fun _ => 0) FileStore.empty [102] [] [99] 5).2
        [102]).block_ids = [] := by
  exact ⟨by decide, by decide, by decide⟩

/-- C6 amended: createFile returns false and leaves the store unchanged
when the name is present; on success it installs metadata with version 1,
both timestamps the creation time and total_size the payload length,
together with exactly one block of sequence number 0 and the creation
timestamp when the payload is nonempty, and no block when the payload is
empty. -/
theorem create_semantics (hash : ByteStr → Nat) (s : FileStore) (f data cid : ByteStr)
    (now : Nat) :
    (hasFile s f = true → createFile hash s f data cid now = (false, s)) ∧
    (hasFile s f = false →
      (createFile hash s f data cid now).1 = true ∧
      lookupA (createFile hash s f data cid now).2.files f =
        some ⟨f, generateFileId hash f, data.length,
          if data.isEmpty then [] else [generateBlockId hash cid now 0], 1, now, now⟩ ∧
      (data.isEmpty = false →
        (createFile hash s f data cid now).2.blocks (generateBlockId hash cid now 0) =
          some ⟨generateBlockId hash cid now 0, cid, 0, now, data, data.length⟩)) := by
  constructor
  · intro h
    rcases hh : lookupA s.files f with _ | md
    · simp [hasFile, hh] at h
    · simp [createFile, hh]
  · intro h
    rcases hh : lookupA s.files f with _ | md
    · refine ⟨by simp [createFile, hh], ?_, ?_⟩
      · simp only [createFile, hh]
        exact lookupA_insertA_self _ _ _
      · intro hne
        simp [createFile, hh, hne, updBlocks]
    · simp [hasFile, hh] at h

/-- C6 amended witness: creating a fresh file from a one-byte payload
installs version-1 metadata and exactly one block with sequence 0. -/
theorem create_semantics_witness :
    hasFile FileStore.empty [102] = false ∧
    (createFile (fun _ => 3) FileStore.empty [102] [55] [99] 5).1 = true ∧
    lookupA (createFile (fun _ => 3) FileStore.empty [102] [55] [99] 5).2.files [102] =
      some ⟨[102], 3, 1, [3], 1, 5, 5⟩ ∧
    (createFile (fun _ => 3) FileStore.empty [102] [55] [99] 5).2.blocks 3 =
      some ⟨3, [99], 0, 5, [55], 1⟩ := by
  have h := (create_semantics (fun _ => 3) FileStore.empty [102] [55] [99] 5).2 (by decide)
  refine ⟨by decide, h.1, ?_, ?_⟩
  · simpa [generateFileId, generateBlockId] using h.2.1
  · simpa [generateBlockId] using h.2.2 (by decide)

/-- C7: satisfiesReadMyWrites returns true exactly when every block id the
tracker has recorded for the client and file pair is contained in the
given block id list; when nothing was recorded for the pair the recorded
list is empty and the condition holds vacuously, so the call returns
true. -/
theorem rmw_satisfied_iff_recorded_subset (t : ClientTracker) (c f : ByteStr)
    (ids : List Nat) (bid0 : Nat) :
    (satisfiesReadMyWrites t c f ids = true ↔
      ∀ bid ∈ getClientAppends t c f, bid ∈ ids) ∧
    getClientAppends (recordAppend t c f bid0) c f = getClientAppends t c f ++ [bid0] := by
  constructor
  · cases hc : lookupA t c with
    | none => simp [satisfiesReadMyWrites, getClientAppends, hc]
    | some fm =>
      cases hf : lookupA fm f with
      | none => simp [satisfiesReadMyWrites, getClientAppends, hc, hf]
      | some recs =>
        simp [satisfiesReadMyWrites, getClientAppends, hc, hf, List.all_eq_true]
  · unfold recordAppend
    cases hc : lookupA t c with
    | none =>
      simp only [getClientAppends, hc, Option.getD_none]
      rw [lookupA_insertA_self]
      simp [lookupA_insertA_self, lookupA, getClientAppends]
    | some fm =>
      cases hf : lookupA fm f with
      | none =>
        simp only [getClientAppends, hc, hf, Option.getD_some, Option.getD_none]
        rw [lookupA_insertA_self]
        simp [lookupA_insertA_self]
      | some recs =>
        simp only [getClientAppends, hc, hf, Option.getD_some]
        rw [lookupA_insertA_self]
        simp [lookupA_insertA_self]

lemma foldl_data_append (blocks : Nat → Option FileBlock) (ids : List Nat) (acc : ByteStr) :
    ids.foldl
        (fun a bid =>
          match blocks bid with
          | some b => a ++ b.data
          | none => a)
        acc =
      acc ++ ((ids.filterMap blocks).map fun b => b.data).flatten := by
  induction ids generalizing acc with
  | nil => simp
  | cons i rest ih =>
    cases h : blocks i with
    | none => simp [h, ih]
    | some b => simp [h, ih, List.append_assoc]

/-- C10: getFile of an absent name is the empty byte sequence rather than
an error, and for a present file it concatenates the data of only those
listed blocks present in the block map, silently skipping dangling ids;
consequently an absent file and a present file whose listed block is
missing both read back as the empty byte sequence, indistinguishable by
the returned bytes, though hasFile tells them apart. -/
theorem getFile_matches_spec_and_hides_missing :
    (∀ (s : FileStore) (f : ByteStr), getFile s f = specGetFile s f) ∧
    getFile FileStore.empty [102] = [] ∧
    hasFile FileStore.empty [102] = false ∧
    getFile ⟨[([102], ⟨[102], 0, 4, [9], 1, 0, 0⟩)], fun _ => none⟩ [102] = [] ∧
    hasFile ⟨[([102], ⟨[102], 0, 4, [9], 1, 0, 0⟩)], fun _ => none⟩ [102] = true := by
  refine ⟨fun s f => ?_, by decide, by decide, by decide, by decide⟩
  rcases h : lookupA s.files f with _ | md
  · simp [getFile, specGetFile, h]
  · simp only [getFile, specGetFile, h]
    rw [foldl_data_append]
    simp

end HyDFS

namespace HyDFS

lemma mod_window_inj (len i m1 m2 : Nat) (h1 : m1 < len) (h2 : m2 < len)
    (he : (i + m1) % len = (i + m2) % len) : m1 = m2 := by
  have h' : m1 ≡ m2 [MOD len] := Nat.ModEq.add_left_cancel' i he
  have h'' : m1 % len = m2 % len := h'
  rwa [Nat.mod_eq_of_lt h1, Nat.mod_eq_of_lt h2] at h''

lemma get_snd_congr (r : Ring) (a b : Nat) (ha : a < r.length) (hb : b < r.length)
    (h : a = b) : (r.get ⟨a, ha⟩).2 = (r.get ⟨b, hb⟩).2 := by
  subst h
  rfl

lemma collectSucc_eq (r : Ring) (hlen : 0 < r.length) :
    ∀ k i, i ≤ r.length → k ≤ r.length →
      collectSucc r i k =
        (List.range k).map fun m => (r.get ⟨(i + m) % r.length, Nat.mod_lt _ hlen⟩).2 := by
  intro k
  induction k with
  | zero => intro i hi hk; rfl
  | succ k ih =>
    intro i hi hk
    have hjlt : (if r.length ≤ i then 0 else i) < r.length := by
      split
      · exact hlen
      · omega
    have hij : i % r.length = if r.length ≤ i then 0 else i := by
      split
      · have : i = r.length := by omega
        simp [this]
      · exact Nat.mod_eq_of_lt (by omega)
    have hstep : collectSucc r i (k + 1) =
        (r.get ⟨if r.length ≤ i then 0 else i, hjlt⟩).2 ::
          collectSucc r ((if r.length ≤ i then 0 else i) + 1) k := by
      simp only [collectSucc]
      rw [List.getElem?_eq_getElem hjlt]
      rfl
    rw [hstep, ih _ (by omega) (by omega), List.range_succ_eq_map, List.map_cons,
      List.map_map]
    congr 1
    · apply get_snd_congr
      rw [Nat.add_zero, hij]
    · apply List.map_congr_left
      intro m hm
      apply get_snd_congr
      have h1 : i ≡ (if r.length ≤ i then 0 else i) [MOD r.length] := by
        show i % r.length = _ % r.length
        rw [hij, Nat.mod_eq_of_lt hjlt]
      have h2 : (i + Nat.succ m) % r.length =
          ((if r.length ≤ i then 0 else i) + Nat.succ m) % r.length :=
        Nat.ModEq.add_right _ h1
      rw [show (if r.length ≤ i then 0 else i) + 1 + m =
          (if r.length ≤ i then 0 else i) + Nat.succ m by omega]
      exact h2.symm

lemma ring_entry_inj (hashN : NodeId → Nat) (r : Ring) (hs : RingSorted r)
    (hw : RingWF hashN r) (a b : Nat) (ha : a < r.length) (hb : b < r.length)
    (he : (r.get ⟨a, ha⟩).2 = (r.get ⟨b, hb⟩).2) : a = b := by
  have hka : hashN (r.get ⟨a, ha⟩).2 = (r.get ⟨a, ha⟩).1 :=
    hw _ (List.get_mem r a ha)
  have hkb : hashN (r.get ⟨b, hb⟩).2 = (r.get ⟨b, hb⟩).1 :=
    hw _ (List.get_mem r b hb)
  have hkey : (r.get ⟨a, ha⟩).1 = (r.get ⟨b, hb⟩).1 := by
    rw [← hka, ← hkb, he]
  rcases Nat.lt_trichotomy a b with hab | hab | hab
  · exfalso
    have := (List.pairwise_iff_getElem.mp hs) a b ha hb hab
    simp only [List.get_eq_getElem] at hkey
    omega
  · exact hab
  · exfalso
    have := (List.pairwise_iff_getElem.mp hs) b a hb ha hab
    simp only [List.get_eq_getElem] at hkey
    omega

/-- C9: on a well-formed ring (entries in strictly ascending position order,
each entry at the position its node hashes to, as addNode and removeNode
maintain), getFileReplicas returns exactly min(n, ring size) pairwise
distinct nodes - so exactly n distinct nodes whenever the ring holds at
least n, and never more entries than the ring holds - and the first entry
is the node at the lowest ring position at or after the file hash position,
or the node at the overall lowest position when no position is at or after
it. -/
theorem ring_placement (hashF : ByteStr → Nat) (hashN : NodeId → Nat) (r : Ring)
    (f : ByteStr) (n : Nat) (hs : RingSorted r) (hw : RingWF hashN r) :
    (getFileReplicas hashF r f n).length = min n r.length ∧
    (getFileReplicas hashF r f n).length ≤ r.length ∧
    (n ≤ r.length → (getFileReplicas hashF r f n).length = n) ∧
    (getFileReplicas hashF r f n).Nodup ∧
    (∀ nd, (getFileReplicas hashF r f n).head? = some nd →
      ∃ e ∈ r, e.2 = nd ∧
        ((∃ e2 ∈ r, hashF f ≤ e2.1) →
          hashF f ≤ e.1 ∧ ∀ e2 ∈ r, hashF f ≤ e2.1 → e.1 ≤ e2.1) ∧
        ((∀ e2 ∈ r, e2.1 < hashF f) → ∀ e2 ∈ r, e.1 ≤ e2.1)) := by
  by_cases hr : r.isEmpty
  · have : r = [] := List.isEmpty_iff.mp hr
    subst this
    refine ⟨by simp [getFileReplicas, getSuccessors], by simp [getFileReplicas, getSuccessors],
      ?_, by simp [getFileReplicas, getSuccessors], ?_⟩
    · intro h
      simp at h
      simp [getFileReplicas, getSuccessors, h]
    · intro nd hnd
      simp [getFileReplicas, getSuccessors] at hnd
  · have hlen : 0 < r.length := by
      cases r with
      | nil => simp at hr
      | cons a l => simp
    have hi : lowerBoundIdx r (hashF f) ≤ r.length := List.findIdx_le_length _
    have hk : min n r.length ≤ r.length := Nat.min_le_right _ _
    have hres : getFileReplicas hashF r f n =
        (List.range (min n r.length)).map fun m =>
          (r.get ⟨(lowerBoundIdx r (hashF f) + m) % r.length, Nat.mod_lt _ hlen⟩).2 := by
      unfold getFileReplicas getSuccessors
      rw [if_neg hr, collectSucc_eq r hlen _ _ hi hk]
    refine ⟨by rw [hres]; simp, ?_, fun h => by rw [hres]; simp; omega, ?_, ?_⟩
    · rw [hres]
      simp
    · rw [hres]
      apply List.Nodup.map_on _ (List.nodup_range _)
      intro m1 hm1 m2 hm2 he
      have hm1l : m1 < r.length := by
        simp at hm1
        omega
      have hm2l : m2 < r.length := by
        simp at hm2
        omega
      have := ring_entry_inj hashN r hs hw _ _ (Nat.mod_lt _ hlen) (Nat.mod_lt _ hlen) he
      exact mod_window_inj r.length (lowerBoundIdx r (hashF f)) m1 m2 hm1l hm2l this
    · intro nd hnd
      rcases Nat.eq_zero_or_pos (min n r.length) with hz | hpos
    -- empty result: no head
      · rw [hres, hz] at hnd
        simp at hnd
      · obtain ⟨k, hksucc⟩ : ∃ k, min n r.length = k + 1 :=
          ⟨min n r.length - 1, by omega⟩
        have hhead : nd =
            (r.get ⟨(lowerBoundIdx r (hashF f) + 0) % r.length, Nat.mod_lt _ hlen⟩).2 := by
          rw [hres, hksucc, List.range_succ_eq_map, List.map_cons] at hnd
          simp at hnd
          exact hnd.symm
        by_cases hfound : lowerBoundIdx r (hashF f) < r.length
        · -- lower_bound hit a real entry: first key at or above the hash position
          have hidx : (lowerBoundIdx r (hashF f) + 0) % r.length =
              lowerBoundIdx r (hashF f) := by
            rw [Nat.add_zero]
            exact Nat.mod_eq_of_lt hfound
          have hfound2 : List.findIdx (fun e => decide (hashF f ≤ e.1)) r < r.length :=
            hfound
          have hp : hashF f ≤ (r.get ⟨lowerBoundIdx r (hashF f), hfound⟩).1 := by
            have := @List.findIdx_getElem _ (fun e => decide (hashF f ≤ e.1)) r hfound2
            simpa using this
          refine ⟨r.get ⟨lowerBoundIdx r (hashF f), hfound⟩,
            List.get_mem r _ hfound, ?_, ?_, ?_⟩
          · rw [hhead]
            exact (get_snd_congr r _ _ _ _ hidx).symm
          · intro _
            refine ⟨hp, ?_⟩
            intro e2 he2 hple
            obtain ⟨j2, hj2, he2eq⟩ := List.mem_iff_getElem.mp he2
            rcases Nat.lt_or_ge j2 (lowerBoundIdx r (hashF f)) with hlt | hge
            · exfalso
              have hlt2 : j2 < List.findIdx (fun e => decide (hashF f ≤ e.1)) r := hlt
              have := List.not_of_lt_findIdx hlt2
              rw [he2eq] at this
              simp at this
              omega
            · rcases Nat.eq_or_lt_of_le hge with heq | hlt2
              · subst heq
                rw [← he2eq]
                exact le_rfl
              · have := (List.pairwise_iff_getElem.mp hs) _ _ hfound hj2 hlt2
                rw [he2eq] at this
                simp only [List.get_eq_getElem]
                omega
          · intro hall
            exfalso
            have := hall _ (List.get_mem r _ hfound)
            omega
        · -- lower_bound returned end: wrap to the overall lowest position
          have hieq : lowerBoundIdx r (hashF f) = r.length := by omega
          have hidx : (lowerBoundIdx r (hashF f) + 0) % r.length = 0 := by
            rw [Nat.add_zero, hieq, Nat.mod_self]
          refine ⟨r.get ⟨0, hlen⟩, List.get_mem r 0 hlen, ?_, ?_, ?_⟩
          · rw [hhead]
            exact (get_snd_congr r _ _ _ _ hidx).symm
          · intro hex
            exfalso
            have : List.findIdx (fun e => decide (hashF f ≤ e.1)) r < r.length :=
              List.findIdx_lt_length_of_exists (by
                obtain ⟨e2, he2, hle⟩ := hex
                exact ⟨e2, he2, by simpa using hle⟩)
            unfold lowerBoundIdx at hieq
            omega
          · intro _
            intro e2 he2
            obtain ⟨j2, hj2, he2eq⟩ := List.mem_iff_getElem.mp he2
            rcases Nat.eq_zero_or_pos j2 with hz2 | hpos2
            · subst hz2
              rw [← he2eq]
              exact le_rfl
            · have := (List.pairwise_iff_getElem.mp hs) 0 j2 hlen hj2 hpos2
              rw [he2eq] at this
              simp only [List.get_eq_getElem]
              omega

/-- C9 witness: a three-entry ring, hash position between the second and
third entries, two successors collected with wraparound. -/
theorem ring_placement_witness :
    RingSorted [(10, ⟨[97], [49], 0⟩), (20, ⟨[98], [49], 0⟩), (30, ⟨[99], [49], 0⟩)] ∧
    RingWF
      (fun nd => if nd.host = [97] then 10 else if nd.host = [98] then 20 else 30)
      [(10, ⟨[97], [49], 0⟩), (20, ⟨[98], [49], 0⟩), (30, ⟨[99], [49], 0⟩)] ∧
    (getFileReplicas (fun _ => 25)
        [(10, ⟨[97], [49], 0⟩), (20, ⟨[98], [49], 0⟩), (30, ⟨[99], [49], 0⟩)] [104] 2).length =
      2 ∧
    (getFileReplicas (fun _ => 25)
        [(10, ⟨[97], [49], 0⟩), (20, ⟨[98], [49], 0⟩), (30, ⟨[99], [49], 0⟩)] [104] 2).Nodup := by
  have hs : RingSorted [(10, ⟨[97], [49], 0⟩), (20, ⟨[98], [49], 0⟩), (30, ⟨[99], [49], 0⟩)] := by
    unfold RingSorted
    decide
  have hw : RingWF
      (fun nd => if nd.host = [97] then 10 else if nd.host = [98] then 20 else 30)
      [(10, ⟨[97], [49], 0⟩), (20, ⟨[98], [49], 0⟩), (30, ⟨[99], [49], 0⟩)] := by
    unfold RingWF
    decide
  have h := ring_placement (fun _ => 25)
      (fun nd => if nd.host = [97] then 10 else if nd.host = [98] then 20 else 30)
      [(10, ⟨[97], [49], 0⟩), (20, ⟨[98], [49], 0⟩), (30, ⟨[99], [49], 0⟩)] [104] 2 hs hw
  exact ⟨hs, hw, h.2.2.1 (by decide), h.2.2.2.1⟩

end HyDFS

namespace HyDFS

lemma lookupA_none_keys {α : Type} (l : List (ByteStr × α)) (k : ByteStr)
    (h : lookupA l k = none) : k ∉ l.map fun p => p.1 := by
  induction l with
  | nil => simp
  | cons p rest ih =>
    by_cases hp : p.1 = k
    · simp [lookupA, hp] at h
    · simp only [lookupA, if_neg hp] at h
      intro hmem
      rcases List.mem_cons.mp hmem with he | hmem2
      · exact hp he.symm
      · exact ih h hmem2

lemma insertA_of_none {α : Type} (l : List (ByteStr × α)) (k : ByteStr) (v : α)
    (h : lookupA l k = none) : insertA l k v = l ++ [(k, v)] := by
  induction l with
  | nil => rfl
  | cons p rest ih =>
    by_cases hp : p.1 = k
    · simp [lookupA, hp] at h
    · simp only [lookupA, if_neg hp] at h
      simp [insertA, hp, ih h]

lemma insertA_split {α : Type} (l : List (ByteStr × α)) (f : ByteStr) (md : α)
    (h : lookupA l f = some md) :
    ∃ l1 l2, l = l1 ++ (f, md) :: l2 ∧ (∀ p ∈ l1, p.1 ≠ f) ∧
      ∀ v, insertA l f v = l1 ++ (f, v) :: l2 := by
  induction l with
  | nil => simp [lookupA] at h
  | cons p rest ih =>
    by_cases hp : p.1 = f
    · refine ⟨[], rest, ?_, by simp, fun v => ?_⟩
      · simp only [lookupA, if_pos hp] at h
        have hpe : p = (f, md) := Prod.ext hp (Option.some.inj h)
        simp [hpe]
      · simp [insertA, hp]
    · simp only [lookupA, if_neg hp] at h
      obtain ⟨l1, l2, he, hne, hins⟩ := ih h
      refine ⟨p :: l1, l2, by rw [he]; rfl, ?_, fun v => ?_⟩
      · intro q hq
        rcases List.mem_cons.mp hq with hq1 | hq2
        · rw [hq1]
          exact hp
        · exact hne q hq2
      · simp [insertA, hp, hins v]

lemma sumSizes_congr (m1 m2 : Nat → Option FileBlock) (ids : List Nat)
    (h : ∀ bid ∈ ids, m2 bid = m1 bid) : sumSizes m2 ids = sumSizes m1 ids := by
  unfold sumSizes
  congr 1
  exact List.map_congr_left fun bid hb => by simp [sizeAt, h bid hb]

lemma sumSizes_append (m : Nat → Option FileBlock) (a b : List Nat) :
    sumSizes m (a ++ b) = sumSizes m a + sumSizes m b := by
  simp [sumSizes]

lemma updBlocks_self (m : Nat → Option FileBlock) (k : Nat) (v : FileBlock) :
    updBlocks m k v k = some v := by
  simp [updBlocks]

lemma updBlocks_ne (m : Nat → Option FileBlock) (k : Nat) (v : FileBlock) (i : Nat)
    (h : i ≠ k) : updBlocks m k v i = m i := by
  simp [updBlocks, h]

lemma eraseBlocks_ne (m : Nat → Option FileBlock) (k i : Nat) (h : i ≠ k) :
    eraseBlocks m k i = m i := by
  simp [eraseBlocks, h]

lemma foldl_erase_not_mem (ids : List Nat) (m : Nat → Option FileBlock) (x : Nat)
    (h : x ∉ ids) : (ids.foldl (fun m2 bid => eraseBlocks m2 bid) m) x = m x := by
  induction ids generalizing m with
  | nil => rfl
  | cons i rest ih =>
    simp only [List.mem_cons] at h
    push_neg at h
    simp only [List.foldl_cons]
    rw [ih _ h.2]
    exact eraseBlocks_ne m i x h.1

lemma foldl_upd_not_mem (bs : List FileBlock) (m : Nat → Option FileBlock) (x : Nat)
    (h : x ∉ bs.map fun b => b.block_id) :
    (bs.foldl (fun m2 b => updBlocks m2 b.block_id b) m) x = m x := by
  induction bs generalizing m with
  | nil => rfl
  | cons b rest ih =>
    simp only [List.map_cons, List.mem_cons] at h
    push_neg at h
    simp only [List.foldl_cons]
    rw [ih _ h.2]
    exact updBlocks_ne m _ b x h.1

lemma sumSizes_foldl_upd (bs : List FileBlock) (m : Nat → Option FileBlock)
    (h : (bs.map fun b => b.block_id).Nodup) :
    sumSizes (bs.foldl (fun m2 b => updBlocks m2 b.block_id b) m)
        (bs.map fun b => b.block_id) =
      (bs.map fun b => b.size).sum := by
  induction bs generalizing m with
  | nil => simp [sumSizes]
  | cons b rest ih =>
    simp only [List.map_cons, List.nodup_cons] at h
    have h1 : (rest.foldl (fun m2 b2 => updBlocks m2 b2.block_id b2)
        (updBlocks m b.block_id b)) b.block_id = some b := by
      rw [foldl_upd_not_mem rest _ _ h.1]
      exact updBlocks_self m _ b
    have h2 := ih (updBlocks m b.block_id b) h.2
    simp only [List.map_cons, List.foldl_cons, sumSizes, List.sum_cons] at h2 ⊢
    rw [show sizeAt (rest.foldl (fun m2 b2 => updBlocks m2 b2.block_id b2)
        (updBlocks m b.block_id b)) b.block_id = b.size by simp [sizeAt, h1], h2]

lemma mem_listedIds (s : FileStore) (p : ByteStr × FileMetadata) (hp : p ∈ s.files)
    (bid : Nat) (hb : bid ∈ p.2.block_ids) : bid ∈ listedIds s := by
  unfold listedIds
  simp only [List.mem_flatten]
  exact ⟨p.2.block_ids, List.mem_map_of_mem _ hp, hb⟩

lemma listedIdsExcept_split (s : FileStore) (f : ByteStr)
    (l1 l2 : List (ByteStr × FileMetadata)) (md : FileMetadata)
    (hsplit : s.files = l1 ++ (f, md) :: l2) (hl1 : ∀ p ∈ l1, p.1 ≠ f)
    (hkeys : (s.files.map fun p => p.1).Nodup) :
    listedIdsExcept s f =
      (l1.map fun p => p.2.block_ids).flatten ++ (l2.map fun p => p.2.block_ids).flatten := by
  have hkeys2 : ((l1 ++ (f, md) :: l2).map fun p => p.1).Nodup := by
    rw [← hsplit]
    exact hkeys
  rw [List.map_append, List.map_cons] at hkeys2
  have hmid := (List.nodup_append.mp hkeys2).2.1
  have hf_rest : f ∉ l2.map fun p => p.1 := (List.nodup_cons.mp hmid).1
  have hl2 : ∀ p ∈ l2, p.1 ≠ f := by
    intro p hp he
    exact hf_rest (he ▸ List.mem_map_of_mem _ hp)
  unfold listedIdsExcept
  rw [hsplit, List.filter_append, List.filter_cons]
  have hc : (!((f, md).1 == f)) = false := by simp
  rw [hc]
  have hf1 : l1.filter (fun p => !(p.1 == f)) = l1 :=
    List.filter_eq_self.mpr fun p hp => by simp [hl1 p hp]
  have hf2 : l2.filter (fun p => !(p.1 == f)) = l2 :=
    List.filter_eq_self.mpr fun p hp => by simp [hl2 p hp]
  simp only [Bool.false_eq_true, if_false, hf1, hf2, List.map_append, List.flatten_append]

end HyDFS


namespace HyDFS

lemma keys_append_single_nodup (l : List (ByteStr × FileMetadata)) (f : ByteStr)
    (md : FileMetadata) (hkeys : (l.map fun p => p.1).Nodup)
    (hf : f ∉ l.map fun p => p.1) :
    ((l ++ [(f, md)]).map fun p => p.1).Nodup := by
  rw [List.map_append, List.nodup_append]
  refine ⟨hkeys, by simp, ?_⟩
  intro a ha hmem
  have : a = f := by simpa using hmem
  exact hf (this ▸ ha)

lemma nodup_append_single (l : List Nat) (t : Nat) (hl : l.Nodup) (ht : t ∉ l) :
    (l ++ [t]).Nodup := by
  rw [List.nodup_append]
  refine ⟨hl, by simp, ?_⟩
  intro a ha hmem
  have : a = t := by simpa using hmem
  exact ht (this ▸ ha)

lemma storeInv_create (hash : ByteStr → Nat) (s : FileStore) (f d c : ByteStr) (now : Nat)
    (hinv : StoreInv s) (hwf : wfOp hash s (StoreOp.create f d c now) = true) :
    StoreInv (createFile hash s f d c now).2 := by
  obtain ⟨hsum, hnodup, hkeys⟩ := hinv
  rcases hh : lookupA s.files f with _ | md
  case some =>
    simp only [createFile, hh]
    exact ⟨hsum, hnodup, hkeys⟩
  case none =>
  have hhas : hasFile s f = false := by simp [hasFile, hh]
  simp only [wfOp, hhas, Bool.false_or, Bool.or_eq_true, Bool.not_eq_true'] at hwf
  have hfkeys := lookupA_none_keys s.files f hh
  by_cases hd : d.isEmpty = true
  · have hde : d = [] := by
      cases d with
      | nil => rfl
      | cons x xs => simp at hd
    subst hde
    simp only [createFile, hh, List.isEmpty_nil, if_true, if_pos rfl]
    rw [insertA_of_none _ _ _ hh]
    refine ⟨?_, ?_, ?_⟩
    · intro p hp
      rcases List.mem_append.mp hp with hp1 | hp2
      · exact hsum p hp1
      · have hpe : p = (f,
          { hydfs_filename := f, file_id := generateFileId hash f, total_size := 0,
            block_ids := [], version := 1, created_timestamp := now,
            last_modified_timestamp := now }) := by
          simpa using hp2
        rw [hpe]
        simp [sumSizes]
    · unfold listedIds
      simpa [List.map_append, List.flatten_append] using hnodup
    · exact keys_append_single_nodup s.files f _ hkeys hfkeys
  · have hd2 : d.isEmpty = false := by simpa using hd
    have hfresh : generateBlockId hash c now 0 ∉ listedIds s := by
      rcases hwf with h1 | h2
      · rw [hd2] at h1
        simp at h1
      · simpa using h2
    simp only [createFile, hh, hd2, Bool.false_eq_true, if_false]
    rw [insertA_of_none _ _ _ hh]
    refine ⟨?_, ?_, ?_⟩
    · intro p hp
      rcases List.mem_append.mp hp with hp1 | hp2
      · have hcong : ∀ bid ∈ p.2.block_ids,
            updBlocks s.blocks (generateBlockId hash c now 0)
              ⟨generateBlockId hash c now 0, c, 0, now, d, d.length⟩ bid = s.blocks bid := by
          intro bid hbid
          exact updBlocks_ne _ _ _ _
            fun he => hfresh (he ▸ mem_listedIds s p hp1 bid hbid)
        rw [sumSizes_congr s.blocks _ p.2.block_ids hcong]
        exact hsum p hp1
      · have hpe : p = (f,
          { hydfs_filename := f, file_id := generateFileId hash f, total_size := d.length,
            block_ids := [generateBlockId hash c now 0], version := 1,
            created_timestamp := now, last_modified_timestamp := now }) := by
          simpa using hp2
        rw [hpe]
        simp [sumSizes, sizeAt, updBlocks_self]
    · unfold listedIds
      simp only [List.map_append, List.flatten_append, List.map_cons, List.flatten_cons,
        List.map_nil, List.flatten_nil, List.append_nil]
      exact nodup_append_single _ _ hnodup hfresh
    · exact keys_append_single_nodup s.files f _ hkeys hfkeys

end HyDFS

namespace HyDFS

lemma listedIds_split_shape (l1 l2 : List (ByteStr × FileMetadata)) (f : ByteStr)
    (md : FileMetadata) (blocks : Nat → Option FileBlock) :
    listedIds ⟨l1 ++ (f, md) :: l2, blocks⟩ =
      (l1.map fun p => p.2.block_ids).flatten ++
        (md.block_ids ++ (l2.map fun p => p.2.block_ids).flatten) := by
  unfold listedIds
  simp [List.map_append, List.flatten_append]

lemma storeInv_append (hash : ByteStr → Nat) (s : FileStore) (f : ByteStr) (b : FileBlock)
    (now : Nat) (hinv : StoreInv s) (hwf : wfOp hash s (StoreOp.append f b now) = true) :
    StoreInv (appendBlock s f b now).2 := by
  obtain ⟨hsum, hnodup, hkeys⟩ := hinv
  rcases hh : lookupA s.files f with _ | md
  case none =>
    simp only [appendBlock, hh]
    exact ⟨hsum, hnodup, hkeys⟩
  case some =>
  have hhas : hasFile s f = true := by simp [hasFile, hh]
  simp only [wfOp, hhas, Bool.not_true, Bool.false_or, Bool.not_eq_true'] at hwf
  have hfresh : b.block_id ∉ listedIds s := by simpa using hwf
  obtain ⟨l1, l2, hsplit, hl1, hins⟩ := insertA_split s.files f md hh
  have horig : listedIds s =
      (l1.map fun p => p.2.block_ids).flatten ++
        (md.block_ids ++ (l2.map fun p => p.2.block_ids).flatten) := by
    have : s = ⟨l1 ++ (f, md) :: l2, s.blocks⟩ := by
      cases s
      simp only at hsplit
      simp [hsplit]
    rw [this]
    exact listedIds_split_shape l1 l2 f md s.blocks
  have hcong : ∀ p, p ∈ s.files → ∀ bid ∈ p.2.block_ids,
      updBlocks s.blocks b.block_id b bid = s.blocks bid := by
    intro p hp bid hbid
    exact updBlocks_ne _ _ _ _ fun he => hfresh (he ▸ mem_listedIds s p hp bid hbid)
  simp only [appendBlock, hh]
  rw [hins]
  refine ⟨?_, ?_, ?_⟩
  · intro p hp
    rcases List.mem_append.mp hp with hp1 | hp2
    · have hpm : p ∈ s.files := by
        rw [hsplit]
        exact List.mem_append_left _ hp1
      rw [sumSizes_congr s.blocks _ p.2.block_ids (hcong p hpm)]
      exact hsum p hpm
    · rcases List.mem_cons.mp hp2 with hpe | hp3
      · have hmdmem : (f, md) ∈ s.files := by
          rw [hsplit]
          exact List.mem_append_right _ (List.mem_cons_self _ _)
        rw [hpe]
        show md.total_size + b.size =
          sumSizes (updBlocks s.blocks b.block_id b) (md.block_ids ++ [b.block_id])
        rw [sumSizes_append,
          sumSizes_congr s.blocks _ md.block_ids (hcong (f, md) hmdmem),
          hsum (f, md) hmdmem]
        simp [sumSizes, sizeAt, updBlocks_self]
      · have hpm : p ∈ s.files := by
          rw [hsplit]
          exact List.mem_append_right _ (List.mem_cons_of_mem _ hp3)
        rw [sumSizes_congr s.blocks _ p.2.block_ids (hcong p hpm)]
        exact hsum p hpm
  · rw [listedIds_split_shape]
    rw [horig] at hnodup hfresh
    simp only [List.mem_append] at hfresh
    push_neg at hfresh
    obtain ⟨htX, htM, htY⟩ := hfresh
    rw [List.nodup_append] at hnodup
    obtain ⟨hnX, hnMY, hdXMY⟩ := hnodup
    rw [List.nodup_append] at hnMY
    obtain ⟨hnM, hnY, hdMY⟩ := hnMY
    rw [List.disjoint_append_right] at hdXMY
    obtain ⟨hdXM, hdXY⟩ := hdXMY
    rw [List.nodup_append]
    refine ⟨hnX, ?_, ?_⟩
    · rw [List.nodup_append]
      refine ⟨nodup_append_single _ _ hnM htM, hnY, ?_⟩
      rw [List.disjoint_append_left]
      exact ⟨hdMY, fun a hat hay => htY ((List.mem_singleton.mp hat) ▸ hay)⟩
    · rw [List.disjoint_append_right, List.disjoint_append_right]
      exact ⟨⟨hdXM, fun a ha hat => htX ((List.mem_singleton.mp hat) ▸ ha)⟩, hdXY⟩
  · have : ((l1 ++ (f, md) :: l2).map fun p => p.1).Nodup := by
      rw [← hsplit]
      exact hkeys
    simpa [List.map_append] using this

end HyDFS

namespace HyDFS

lemma storeInv_merge (hash : ByteStr → Nat) (s : FileStore) (f : ByteStr)
    (bs : List FileBlock) (now : Nat) (hinv : StoreInv s)
    (hwf : wfOp hash s (StoreOp.merge f bs now) = true) :
    StoreInv (mergeFile s f bs now).2 := by
  obtain ⟨hsum, hnodup, hkeys⟩ := hinv
  rcases hh : lookupA s.files f with _ | md
  case none =>
    simp only [mergeFile, hh]
    exact ⟨hsum, hnodup, hkeys⟩
  case some =>
  have hhas : hasFile s f = true := by simp [hasFile, hh]
  simp only [wfOp, hhas, Bool.not_true, Bool.false_or, Bool.and_eq_true,
    decide_eq_true_eq, List.all_eq_true, Bool.not_eq_true'] at hwf
  obtain ⟨hN, hFresh⟩ := hwf
  have hFresh2 : ∀ bb ∈ bs, bb.block_id ∉ listedIdsExcept s f := by
    intro bb hbb
    simpa using hFresh bb hbb
  obtain ⟨l1, l2, hsplit, hl1, hins⟩ := insertA_split s.files f md hh
  have hexc : listedIdsExcept s f =
      (l1.map fun p => p.2.block_ids).flatten ++
        (l2.map fun p => p.2.block_ids).flatten :=
    listedIdsExcept_split s f l1 l2 md hsplit hl1 hkeys
  have horig : listedIds s =
      (l1.map fun p => p.2.block_ids).flatten ++
        (md.block_ids ++ (l2.map fun p => p.2.block_ids).flatten) := by
    have hse : s = ⟨l1 ++ (f, md) :: l2, s.blocks⟩ := by
      cases s
      simp only at hsplit
      simp [hsplit]
    rw [hse]
    exact listedIds_split_shape l1 l2 f md s.blocks
  have hNid : ∀ bid, bid ∈ (bs.map fun b => b.block_id) →
      bid ∉ listedIdsExcept s f := by
    intro bid hbid
    obtain ⟨bb, hbb, hbe⟩ := List.mem_map.mp hbid
    rw [← hbe]
    exact hFresh2 bb hbb
  -- original Nodup decomposition
  have hnodup2 := hnodup
  rw [horig, List.nodup_append] at hnodup2
  obtain ⟨hnX, hnMY, hdXMY⟩ := hnodup2
  rw [List.nodup_append] at hnMY
  obtain ⟨hnM, hnY, hdMY⟩ := hnMY
  rw [List.disjoint_append_right] at hdXMY
  obtain ⟨hdXM, hdXY⟩ := hdXMY
  -- blocks untouched at ids listed by other files
  have hother : ∀ p, p ∈ l1 ∨ p ∈ l2 → ∀ bid ∈ p.2.block_ids,
      (bs.foldl (fun m b => updBlocks m b.block_id b)
        (md.block_ids.foldl (fun m bid2 => eraseBlocks m bid2) s.blocks)) bid =
        s.blocks bid := by
    intro p hp bid hbid
    have hbexc : bid ∈ listedIdsExcept s f := by
      rw [hexc]
      rcases hp with hp1 | hp2
      · exact List.mem_append_left _
          (List.mem_flatten.mpr ⟨p.2.block_ids, List.mem_map_of_mem _ hp1, hbid⟩)
      · exact List.mem_append_right _
          (List.mem_flatten.mpr ⟨p.2.block_ids, List.mem_map_of_mem _ hp2, hbid⟩)
    have hbid_notN : bid ∉ bs.map fun b => b.block_id := fun hmem => hNid bid hmem hbexc
    have hbid_notM : bid ∉ md.block_ids := by
      intro hmem
      rw [hexc, List.mem_append] at hbexc
      rcases hbexc with hx | hy
      · exact hdXM hx hmem
      · exact hdMY hmem hy
    rw [foldl_upd_not_mem bs _ bid hbid_notN, foldl_erase_not_mem _ _ _ hbid_notM]
  simp only [mergeFile, hh]
  rw [hins]
  refine ⟨?_, ?_, ?_⟩
  · intro p hp
    rcases List.mem_append.mp hp with hp1 | hp2
    · have hpm : p ∈ s.files := by
        rw [hsplit]
        exact List.mem_append_left _ hp1
      rw [sumSizes_congr s.blocks _ p.2.block_ids
        fun bid hbid => hother p (Or.inl hp1) bid hbid]
      exact hsum p hpm
    · rcases List.mem_cons.mp hp2 with hpe | hp3
      · rw [hpe]
        exact (sumSizes_foldl_upd bs _ hN).symm
      · have hpm : p ∈ s.files := by
          rw [hsplit]
          exact List.mem_append_right _ (List.mem_cons_of_mem _ hp3)
        rw [sumSizes_congr s.blocks _ p.2.block_ids
          fun bid hbid => hother p (Or.inr hp3) bid hbid]
        exact hsum p hpm
  · rw [listedIds_split_shape]
    have hdNY : List.Disjoint (bs.map fun b => b.block_id)
        ((l2.map fun p => p.2.block_ids).flatten) := by
      intro a haN haY
      exact hNid a haN (by rw [hexc]; exact List.mem_append_right _ haY)
    have hdXN : List.Disjoint ((l1.map fun p => p.2.block_ids).flatten)
        (bs.map fun b => b.block_id) := by
      intro a haX haN
      exact hNid a haN (by rw [hexc]; exact List.mem_append_left _ haX)
    rw [List.nodup_append]
    refine ⟨hnX, ?_, ?_⟩
    · rw [List.nodup_append]
      exact ⟨hN, hnY, hdNY⟩
    · rw [List.disjoint_append_right]
      exact ⟨hdXN, hdXY⟩
  · have hk2 : ((l1 ++ (f, md) :: l2).map fun p => p.1).Nodup := by
      rw [← hsplit]
      exact hkeys
    simpa [List.map_append] using hk2

end HyDFS


namespace HyDFS

/-- C8 counterexample: starting from the empty store, where the size
identity holds, create an empty file and append two different blocks that
carry the same block id 1. appendBlock accepts both, total_size becomes
0 + 1 + 2 = 3, but block_ids is [1, 1] and the block map holds only the
second block of size 2, so the sum of block sizes over block_ids is
2 + 2 = 4. -/
theorem size_identity_fails_on_duplicate_ids :
    StoreInv FileStore.empty ∧
    (getFileMetadata dupIdStore [102]).total_size = 3 ∧
    sumSizes dupIdStore.blocks (getFileMetadata dupIdStore [102]).block_ids = 4 ∧
    (getFileMetadata dupIdStore [102]).total_size ≠
      sumSizes dupIdStore.blocks (getFileMetadata dupIdStore [102]).block_ids := by
  refine ⟨⟨?_, ?_, ?_⟩, by decide, by decide, by decide⟩
  · intro p hp
    simp [FileStore.empty] at hp
  · simp [listedIds, FileStore.empty]
  · simp [FileStore.empty]

/-- C8 amended: the size identity is an invariant of every create, append
and merge sequence in which block ids stay fresh - each effective create
or append introduces a block id not listed anywhere in the store and each
effective merge installs pairwise-distinct ids not listed by other files.
Under that freshness condition, which the spec assumes by treating block id
collisions as application errors, every file's total_size equals the sum of
the sizes of its listed blocks after any such sequence. -/
theorem size_identity_invariant_fresh_ids (hash : ByteStr → Nat) (s : FileStore)
    (ops : List StoreOp) (h0 : StoreInv s) (hwf : wfTrace hash s ops = true) :
    StoreInv (applyOps hash s ops) := by
  induction ops generalizing s with
  | nil => exact h0
  | cons op rest ih =>
    simp only [wfTrace, Bool.and_eq_true] at hwf
    have h1 : StoreInv (applyOp hash s op) := by
      cases op with
      | create f d c n => exact storeInv_create hash s f d c n h0 hwf.1
      | append f b n => exact storeInv_append hash s f b n h0 hwf.1
      | merge f bs n => exact storeInv_merge hash s f bs n h0 hwf.1
    simp only [applyOps, List.foldl_cons]
    exact ih (applyOp hash s op) h1 hwf.2

/-- C8 amended witness: a concrete fresh-id trace of create, append and
merge keeps the invariant. -/
theorem size_identity_invariant_fresh_ids_witness :
    StoreInv FileStore.empty ∧
    wfTrace (fun _ => 0) FileStore.empty freshIdTrace = true ∧
    StoreInv (applyOps (fun _ => 0) FileStore.empty freshIdTrace) := by
  refine ⟨?_, ?_, ?_⟩
  · refine ⟨?_, ?_, ?_⟩
    · intro p hp
      simp [FileStore.empty] at hp
    · simp [listedIds, FileStore.empty]
    · simp [FileStore.empty]
  · decide
  · exact size_identity_invariant_fresh_ids (fun _ => 0) FileStore.empty freshIdTrace
      ⟨fun p hp => by simp [FileStore.empty] at hp, by simp [listedIds, FileStore.empty],
        by simp [FileStore.empty]⟩ (by decide)

end HyDFS
